import Mathlib

/-!
# Verification of `src/tools/windows/make_weftend_w_icon.py`

Shallow embedding of the icon-generation script.  Real-number arithmetic (ℝ)
idealizes Python floats, `pyInt` models Python's `int()` truncation toward
zero, and `hypot` is `math.hypot`.  The external imaging library (PIL) is out
of scope per the spec: its operations are represented by an operation tree
`PImage` that records exactly the calls the script makes with their
arguments, while the stamp geometry and colors the script itself computes
are embedded exactly.
-/

/-- Python helper `lerp(a, b, t) = a + (b - a) * t`. -/
noncomputable def lerp (a b t : ℝ) : ℝ := a + (b - a) * t

/-- Python helper `clamp(x, lo, hi) = max(lo, min(hi, x))` (defined by the
script, never called by it). -/
noncomputable def clamp (x lo hi : ℝ) : ℝ := max lo (min hi x)

/-- Python `int()` on a float: truncation toward zero. -/
noncomputable def pyInt (x : ℝ) : ℤ := if 0 ≤ x then ⌊x⌋ else -⌊-x⌋

/-- `math.hypot(x, y)`: the Euclidean norm. -/
noncomputable def hypot (x y : ℝ) : ℝ := Real.sqrt (x ^ 2 + y ^ 2)

/-- An RGBA color with integer 8-bit channels, as built by `rgb_lerp`. -/
structure RGBA where
  r : ℤ
  g : ℤ
  b : ℤ
  a : ℤ

/-- Python `rgb_lerp(c1, c2, t)`: per-channel linear interpolation between two
RGB triples, truncated to int, alpha fixed at 255. -/
noncomputable def rgb_lerp (c1 c2 : ℤ × ℤ × ℤ) (t : ℝ) : RGBA :=
  { r := pyInt (lerp (c1.1 : ℝ) (c2.1 : ℝ) t)
    g := pyInt (lerp (c1.2.1 : ℝ) (c2.2.1 : ℝ) t)
    b := pyInt (lerp (c1.2.2 : ℝ) (c2.2.2 : ℝ) t)
    a := 255 }

/-- A point of the canvas plane. -/
abbrev Point := ℝ × ℝ

/-- The per-segment Euclidean lengths of a polyline: the `seg_lens` list that
`draw_thick_polyline` computes from consecutive point pairs. -/
noncomputable def seg_lens : List Point → List ℝ
  | p :: q :: rest => hypot (q.1 - p.1) (q.2 - p.2) :: seg_lens (q :: rest)
  | _ => []

/-- One circular brush stamp issued by `draw_thick_polyline`: its center, its
radius `width / 2`, the global interpolation parameter `t_global` it was
computed with, and its fill color. -/
structure Stamp where
  x : ℝ
  y : ℝ
  rad : ℝ
  tg : ℝ
  col : RGBA

/-- `steps = max(8, int(L / 2))` for a segment of length `L`. -/
noncomputable def steps_for (L : ℝ) : ℕ := max 8 (pyInt (L / 2)).toNat

/-- The stamp placed at step `s` of the segment from `p` to `q` of length `L`,
where `accum` is the path length stamped before this segment and `total` the
whole path length: position is the in-segment linear interpolation at
`tt = s / steps`, and the color is `rgb_lerp` at
`t_global = (accum + L * tt) / total`. -/
noncomputable def mk_stamp (p q : Point) (L accum total : ℝ) (width : ℕ)
    (cs ce : ℤ × ℤ × ℤ) (steps s : ℕ) : Stamp :=
  { x := lerp p.1 q.1 ((s : ℝ) / (steps : ℝ))
    y := lerp p.2 q.2 ((s : ℝ) / (steps : ℝ))
    rad := (width : ℝ) / 2
    tg := (accum + L * ((s : ℝ) / (steps : ℝ))) / total
    col := rgb_lerp cs ce ((accum + L * ((s : ℝ) / (steps : ℝ))) / total) }

/-- The `steps + 1` stamps of one segment: the inner
`for s in range(steps + 1)` loop of `draw_thick_polyline`. -/
noncomputable def segment_stamps (p q : Point) (L accum total : ℝ) (width : ℕ)
    (cs ce : ℤ × ℤ × ℤ) : List Stamp :=
  (List.range (steps_for L + 1)).map (mk_stamp p q L accum total width cs ce (steps_for L))

/-- The outer segment loop of `draw_thick_polyline`: walks consecutive point
pairs, skips a segment whose length is ≤ 1e-6 (the Python `continue`, which
also skips the `accum += L` update), and otherwise emits that segment's
stamps and adds its length to `accum`. -/
noncomputable def stamps_loop (width : ℕ) (cs ce : ℤ × ℤ × ℤ) (total : ℝ) :
    List Point → ℝ → List Stamp
  | p :: q :: rest, accum =>
    if hypot (q.1 - p.1) (q.2 - p.2) ≤ 1e-6 then
      stamps_loop width cs ce total (q :: rest) accum
    else
      segment_stamps p q (hypot (q.1 - p.1) (q.2 - p.2)) accum total width cs ce
        ++ stamps_loop width cs ce total (q :: rest)
            (accum + hypot (q.1 - p.1) (q.2 - p.2))
  | _, _ => []

/-- The full stamp list drawn by `draw_thick_polyline` when its degenerate
early return does not fire. -/
noncomputable def stamps (points : List Point) (width : ℕ) (cs ce : ℤ × ℤ × ℤ) :
    List Stamp :=
  stamps_loop width cs ce (seg_lens points).sum points 0

/-- How many stamps a segment of length `L` receives: none when `L ≤ 1e-6`,
otherwise one per step plus one (`range(steps + 1)`). -/
noncomputable def seg_stamp_count (L : ℝ) : ℕ :=
  if 1e-6 < L then steps_for L + 1 else 0

/-- Trace of the PIL image operations the script performs.  Pixel semantics
is the library's (out of scope); the tree records which operations run, in
which order, with which arguments. -/
inductive PImage where
  | new (w h : ℕ)
  | stamped (base : PImage) (sts : List Stamp) (blur : ℝ)
  | putalphaScaled (img : PImage) (factor : ℝ)
  | composite (base : PImage) (layer : PImage)
  | unsharp (img : PImage) (radius percent threshold : ℕ)

/-- Python `draw_thick_polyline(base, points, width, c_start, c_end, blur)`:
if the total path length is ≤ 1e-6 it returns with `base` untouched (no layer
is composited); otherwise it stamps circles along the path into a fresh
transparent layer, blurs the layer when `blur > 0`, and alpha-composites it
onto `base` — `PImage.stamped` records that compound effect. -/
noncomputable def draw_thick_polyline (base : PImage) (points : List Point)
    (width : ℕ) (cs ce : ℤ × ℤ × ℤ) (blur : ℝ) : PImage :=
  if (seg_lens points).sum ≤ 1e-6 then base
  else PImage.stamped base (stamps points width cs ce) blur

/-- The hard-coded normalized control coordinates of the left W stroke. -/
noncomputable def norm_left : List (ℝ × ℝ) :=
  [(0.10, 0.15), (0.28, 0.80), (0.48, 0.45), (0.62, 0.80), (0.82, 0.15)]

/-- The hard-coded normalized control coordinates of the right W stroke. -/
noncomputable def norm_right : List (ℝ × ℝ) :=
  [(0.18, 0.15), (0.36, 0.78), (0.50, 0.52), (0.68, 0.78), (0.90, 0.15)]

/-- `pad = int(size * 0.12)` in `make_icon`. -/
noncomputable def pad (size : ℕ) : ℤ := pyInt ((size : ℝ) * 0.12)

/-- The local helper `P(nx, ny)` of `make_icon`:
`(pad + nx * (size - 2 * pad), pad + ny * (size - 2 * pad))`. -/
noncomputable def Ppt (size : ℕ) (n : ℝ × ℝ) : Point :=
  ((pad size : ℝ) + n.1 * ((size : ℝ) - 2 * (pad size : ℝ)),
   (pad size : ℝ) + n.2 * ((size : ℝ) - 2 * (pad size : ℝ)))

/-- The `left` polyline of `make_icon`. -/
noncomputable def left_pts (size : ℕ) : List Point := norm_left.map (Ppt size)

/-- The `right` polyline of `make_icon`. -/
noncomputable def right_pts (size : ℕ) : List Point := norm_right.map (Ppt size)

/-- `stroke = int(size * 0.13)`. -/
noncomputable def stroke (size : ℕ) : ℕ := (pyInt ((size : ℝ) * 0.13)).toNat

/-- The drop-shadow displacement applied to each point:
`(x + size * 0.01, y + size * 0.02)`. -/
noncomputable def shadow_shift (size : ℕ) (pts : List Point) : List Point :=
  pts.map (fun p => (p.1 + (size : ℝ) * 0.01, p.2 + (size : ℝ) * 0.02))

/-- The shadow buffer before its alpha is scaled: a fresh transparent canvas
with both offset strokes drawn in uniform black at full stroke width with
blur 8. -/
noncomputable def shadow_base (size : ℕ) : PImage :=
  draw_thick_polyline
    (draw_thick_polyline (PImage.new size size)
      (shadow_shift size (left_pts size)) (stroke size) (0, 0, 0) (0, 0, 0) 8)
    (shadow_shift size (right_pts size)) (stroke size) (0, 0, 0) (0, 0, 0) 8

/-- The shadow layer as composited: the shadow buffer with its alpha channel
pointwise rescaled by `int(p * 0.20)` (the `split`/`point`/`putalpha`
sequence of `make_icon`). -/
noncomputable def shadow_layer (size : ℕ) : PImage :=
  PImage.putalphaScaled (shadow_base size) 0.20

/-- The highlight stroke width `max(1, int(stroke * 0.45))`. -/
noncomputable def highlight_width (size : ℕ) : ℕ :=
  max 1 (pyInt ((stroke size : ℝ) * 0.45)).toNat

/-- The highlight buffer before its alpha is scaled: both strokes drawn in
uniform white at the reduced highlight width with blur 2. -/
noncomputable def highlight_base (size : ℕ) : PImage :=
  draw_thick_polyline
    (draw_thick_polyline (PImage.new size size)
      (left_pts size) (highlight_width size) (255, 255, 255) (255, 255, 255) 2)
    (right_pts size) (highlight_width size) (255, 255, 255) (255, 255, 255) 2

/-- The highlight layer as composited: alpha pointwise rescaled by
`int(p * 0.18)`. -/
noncomputable def highlight_layer (size : ℕ) : PImage :=
  PImage.putalphaScaled (highlight_base size) 0.18

/-- Python `make_icon(size)`: transparent canvas, shadow layer composited,
then the two gradient ribbon strokes drawn directly on the canvas, then the
highlight layer composited, then one unsharp-mask pass
(radius 2, percent 150, threshold 3). -/
noncomputable def make_icon (size : ℕ) : PImage :=
  PImage.unsharp
    (PImage.composite
      (draw_thick_polyline
        (draw_thick_polyline
          (PImage.composite (PImage.new size size) (shadow_layer size))
          (left_pts size) (stroke size) (0, 210, 255) (150, 70, 255) 0)
        (right_pts size) (stroke size) (80, 255, 210) (255, 40, 200) 0)
      (highlight_layer size))
    2 150 3

/-- The pointwise alpha rescaling map `lambda p: int(p * factor)` that
`make_icon` applies to a layer's 8-bit alpha channel through `Image.point`. -/
noncomputable def alpha_point (factor : ℝ) (p : ℕ) : ℤ := pyInt ((p : ℝ) * factor)

/-- A file written by `main`: a single PNG render, or the ICO container
re-encoding one base render at a list of sub-resolutions. -/
inductive OutFile where
  | png (path : String) (img : PImage)
  | ico (path : String) (img : PImage) (sizes : List (ℕ × ℕ))

/-- The path a written file gets. -/
def OutFile.path : OutFile → String
  | .png p _ => p
  | .ico p _ _ => p

/-- The module constant `NAME`. -/
def NAME : String := "weftend_W"

/-- The fixed PNG size list of `main`. -/
def sizes_png : List ℕ := [1024, 512, 256]

/-- The fixed ICO sub-resolution list of `main`. -/
def ico_sizes : List (ℕ × ℕ) :=
  [(256, 256), (128, 128), (64, 64), (48, 48), (32, 32), (24, 24), (16, 16)]

/-- The files `main` writes, in order: one `<NAME>_<s>.png` per size in
`sizes_png`, then `<NAME>.ico` built from a fresh 256-pixel render with the
`ico_sizes` sub-resolutions. -/
noncomputable def main_outputs : List OutFile :=
  sizes_png.map (fun s => OutFile.png (NAME ++ "_" ++ toString s ++ ".png") (make_icon s))
    ++ [OutFile.ico (NAME ++ ".ico") (make_icon 256) ico_sizes]

/-! ## Helper lemmas -/

theorem pyInt_of_nonneg {x : ℝ} (hx : 0 ≤ x) : pyInt x = ⌊x⌋ := if_pos hx

theorem pyInt_intCast (n : ℤ) : pyInt (n : ℝ) = n := by
  unfold pyInt
  split
  · exact Int.floor_intCast n
  · rw [show (-(n : ℝ)) = ((-n : ℤ) : ℝ) by push_cast; ring, Int.floor_intCast]
    ring

theorem pyInt_mono {x y : ℝ} (h : x ≤ y) : pyInt x ≤ pyInt y := by
  unfold pyInt
  by_cases hx : 0 ≤ x
  · rw [if_pos hx, if_pos (hx.trans h)]
    exact Int.floor_le_floor h
  · rw [if_neg hx]
    push_neg at hx
    by_cases hy : 0 ≤ y
    · rw [if_pos hy]
      have h1 : (0 : ℤ) ≤ ⌊-x⌋ := Int.floor_nonneg.mpr (by linarith)
      have h2 : (0 : ℤ) ≤ ⌊y⌋ := Int.floor_nonneg.mpr hy
      omega
    · rw [if_neg hy]
      have h3 : ⌊-y⌋ ≤ ⌊-x⌋ := Int.floor_le_floor (by linarith)
      omega

theorem hypot_nonneg (x y : ℝ) : 0 ≤ hypot x y := Real.sqrt_nonneg _

theorem hypot_x_zero {x : ℝ} (hx : 0 ≤ x) : hypot x 0 = x := by
  unfold hypot
  rw [show x ^ 2 + (0 : ℝ) ^ 2 = x ^ 2 by ring]
  exact Real.sqrt_sq hx

theorem seg_lens_cons (p q : Point) (rest : List Point) :
    seg_lens (p :: q :: rest) = hypot (q.1 - p.1) (q.2 - p.2) :: seg_lens (q :: rest) := by
  rw [seg_lens]

theorem seg_lens_nonneg {points : List Point} : ∀ L ∈ seg_lens points, 0 ≤ L := by
  induction points with
  | nil => simp [seg_lens]
  | cons p rest ih =>
    cases rest with
    | nil => simp [seg_lens]
    | cons q rest' =>
      intro L hL
      rw [seg_lens_cons] at hL
      rcases List.mem_cons.mp hL with h | h
      · exact h ▸ hypot_nonneg _ _
      · exact ih L h

theorem total_nonneg (points : List Point) : 0 ≤ (seg_lens points).sum :=
  List.sum_nonneg seg_lens_nonneg

theorem stamps_loop_cons (w : ℕ) (cs ce : ℤ × ℤ × ℤ) (total : ℝ)
    (p q : Point) (rest : List Point) (accum : ℝ) :
    stamps_loop w cs ce total (p :: q :: rest) accum
      = if hypot (q.1 - p.1) (q.2 - p.2) ≤ 1e-6 then
          stamps_loop w cs ce total (q :: rest) accum
        else segment_stamps p q (hypot (q.1 - p.1) (q.2 - p.2)) accum total w cs ce
          ++ stamps_loop w cs ce total (q :: rest)
              (accum + hypot (q.1 - p.1) (q.2 - p.2)) := by
  rw [stamps_loop]

theorem stamps_loop_nil (w : ℕ) (cs ce : ℤ × ℤ × ℤ) (total accum : ℝ) :
    stamps_loop w cs ce total [] accum = [] := by
  rw [stamps_loop] <;> (intros; simp_all)

theorem stamps_loop_single (w : ℕ) (cs ce : ℤ × ℤ × ℤ) (total accum : ℝ) (p : Point) :
    stamps_loop w cs ce total [p] accum = [] := by
  rw [stamps_loop] <;> (intros; simp_all)

theorem steps_for_pos (L : ℝ) : 0 < steps_for L :=
  lt_of_lt_of_le (by norm_num) (le_max_left 8 _)

theorem segment_stamps_length (p q : Point) (L accum total : ℝ) (w : ℕ)
    (cs ce : ℤ × ℤ × ℤ) :
    (segment_stamps p q L accum total w cs ce).length = steps_for L + 1 := by
  rw [segment_stamps, List.length_map, List.length_range]

theorem segment_stamps_ne_nil (p q : Point) (L accum total : ℝ) (w : ℕ)
    (cs ce : ℤ × ℤ × ℤ) :
    segment_stamps p q L accum total w cs ce ≠ [] := by
  intro h
  have := congrArg List.length h
  rw [segment_stamps_length] at this
  simp at this

theorem segment_stamps_head? (p q : Point) (L accum total : ℝ) (w : ℕ)
    (cs ce : ℤ × ℤ × ℤ) :
    (segment_stamps p q L accum total w cs ce).head?
      = some (mk_stamp p q L accum total w cs ce (steps_for L) 0) := by
  rw [segment_stamps, List.range_succ_eq_map, List.map_cons, List.head?_cons]

theorem segment_stamps_getLast? (p q : Point) (L accum total : ℝ) (w : ℕ)
    (cs ce : ℤ × ℤ × ℤ) :
    (segment_stamps p q L accum total w cs ce).getLast?
      = some (mk_stamp p q L accum total w cs ce (steps_for L) (steps_for L)) := by
  rw [segment_stamps, List.range_succ, List.map_append, List.map_singleton,
    List.getLast?_concat]

theorem segment_stamps_mem {p q : Point} {L accum total : ℝ} {w : ℕ}
    {cs ce : ℤ × ℤ × ℤ} {st : Stamp}
    (h : st ∈ segment_stamps p q L accum total w cs ce) :
    ∃ s ≤ steps_for L, st = mk_stamp p q L accum total w cs ce (steps_for L) s := by
  rw [segment_stamps] at h
  rcases List.mem_map.mp h with ⟨s, hs, hst⟩
  exact ⟨s, Nat.lt_succ_iff.mp (List.mem_range.mp hs), hst.symm⟩

theorem mk_stamp_tg (p q : Point) (L accum total : ℝ) (w : ℕ)
    (cs ce : ℤ × ℤ × ℤ) (steps s : ℕ) :
    (mk_stamp p q L accum total w cs ce steps s).tg
      = (accum + L * ((s : ℝ) / (steps : ℝ))) / total := rfl

theorem mk_stamp_col (p q : Point) (L accum total : ℝ) (w : ℕ)
    (cs ce : ℤ × ℤ × ℤ) (steps s : ℕ) :
    (mk_stamp p q L accum total w cs ce steps s).col
      = rgb_lerp cs ce (mk_stamp p q L accum total w cs ce steps s).tg := rfl

theorem mk_stamp_tg_zero (p q : Point) (L accum total : ℝ) (w : ℕ)
    (cs ce : ℤ × ℤ × ℤ) (steps : ℕ) :
    (mk_stamp p q L accum total w cs ce steps 0).tg = accum / total := by
  rw [mk_stamp_tg]
  norm_num

theorem mk_stamp_tg_last (p q : Point) (L accum total : ℝ) (w : ℕ)
    (cs ce : ℤ × ℤ × ℤ) {steps : ℕ} (hs : steps ≠ 0) :
    (mk_stamp p q L accum total w cs ce steps steps).tg = (accum + L) / total := by
  rw [mk_stamp_tg, div_self (Nat.cast_ne_zero.mpr hs), mul_one]

theorem seg_lens_nil : seg_lens [] = [] := by
  rw [seg_lens] <;> (intros; simp_all)

theorem seg_lens_single (p : Point) : seg_lens [p] = [] := by
  rw [seg_lens] <;> (intros; simp_all)

theorem div_le_div_nonneg_denom {a b c : ℝ} (h : a ≤ b) (hc : 0 ≤ c) :
    a / c ≤ b / c := by
  rcases hc.eq_or_lt with h0 | h0
  · rw [← h0]
    simp
  · exact (div_le_div_iff_of_pos_right h0).mpr h

theorem stamps_loop_length (w : ℕ) (cs ce : ℤ × ℤ × ℤ) (total : ℝ) :
    ∀ (points : List Point) (accum : ℝ),
      (stamps_loop w cs ce total points accum).length
        = ((seg_lens points).map seg_stamp_count).sum := by
  intro points
  induction points with
  | nil => intro accum; rw [stamps_loop_nil, seg_lens_nil]; rfl
  | cons p rest ih =>
    cases rest with
    | nil => intro accum; rw [stamps_loop_single, seg_lens_single]; rfl
    | cons q rest' =>
      intro accum
      rw [stamps_loop_cons, seg_lens_cons, List.map_cons, List.sum_cons]
      by_cases hL : hypot (q.1 - p.1) (q.2 - p.2) ≤ 1e-6
      · rw [if_pos hL, ih accum, seg_stamp_count, if_neg (not_lt.mpr hL), zero_add]
      · rw [if_neg hL, List.length_append, segment_stamps_length, ih,
          seg_stamp_count, if_pos (not_le.mp hL)]

theorem stamps_loop_col (w : ℕ) (cs ce : ℤ × ℤ × ℤ) (total : ℝ) :
    ∀ (points : List Point) (accum : ℝ),
      ∀ st ∈ stamps_loop w cs ce total points accum,
        st.col = rgb_lerp cs ce st.tg ∧ st.col.a = 255 := by
  intro points
  induction points with
  | nil =>
    intro accum st hst
    rw [stamps_loop_nil] at hst
    exact absurd hst (List.not_mem_nil st)
  | cons p rest ih =>
    cases rest with
    | nil =>
      intro accum st hst
      rw [stamps_loop_single] at hst
      exact absurd hst (List.not_mem_nil st)
    | cons q rest' =>
      intro accum st hst
      rw [stamps_loop_cons] at hst
      by_cases hL : hypot (q.1 - p.1) (q.2 - p.2) ≤ 1e-6
      · rw [if_pos hL] at hst
        exact ih accum st hst
      · rw [if_neg hL] at hst
        rcases List.mem_append.mp hst with h | h
        · rcases segment_stamps_mem h with ⟨s, _, rfl⟩
          exact ⟨mk_stamp_col _ _ _ _ _ _ _ _ _ _, rfl⟩
        · exact ih _ st h

theorem stamps_loop_tg_lb (w : ℕ) (cs ce : ℤ × ℤ × ℤ) {total : ℝ} (htot : 0 ≤ total) :
    ∀ (points : List Point) (accum : ℝ),
      ∀ st ∈ stamps_loop w cs ce total points accum, accum / total ≤ st.tg := by
  intro points
  induction points with
  | nil =>
    intro accum st hst
    rw [stamps_loop_nil] at hst
    exact absurd hst (List.not_mem_nil st)
  | cons p rest ih =>
    cases rest with
    | nil =>
      intro accum st hst
      rw [stamps_loop_single] at hst
      exact absurd hst (List.not_mem_nil st)
    | cons q rest' =>
      intro accum st hst
      rw [stamps_loop_cons] at hst
      by_cases hL : hypot (q.1 - p.1) (q.2 - p.2) ≤ 1e-6
      · rw [if_pos hL] at hst
        exact ih accum st hst
      · rw [if_neg hL] at hst
        have hL0 : (0 : ℝ) ≤ hypot (q.1 - p.1) (q.2 - p.2) := hypot_nonneg _ _
        rcases List.mem_append.mp hst with h | h
        · rcases segment_stamps_mem h with ⟨s, _, rfl⟩
          rw [mk_stamp_tg]
          apply div_le_div_nonneg_denom _ htot
          have hmul : 0 ≤ hypot (q.1 - p.1) (q.2 - p.2)
              * ((s : ℝ) / (steps_for (hypot (q.1 - p.1) (q.2 - p.2)) : ℝ)) :=
            mul_nonneg hL0 (div_nonneg (Nat.cast_nonneg s) (Nat.cast_nonneg _))
          linarith
        · have h1 := ih _ st h
          have h2 : accum / total
              ≤ (accum + hypot (q.1 - p.1) (q.2 - p.2)) / total :=
            div_le_div_nonneg_denom (by linarith) htot
          linarith

theorem stamps_loop_chain (w : ℕ) (cs ce : ℤ × ℤ × ℤ) {total : ℝ} (htot : 0 ≤ total) :
    ∀ (points : List Point) (accum : ℝ),
      List.Chain' (fun a b : Stamp => a.tg ≤ b.tg)
        (stamps_loop w cs ce total points accum) := by
  intro points
  induction points with
  | nil => intro accum; rw [stamps_loop_nil]; exact List.chain'_nil
  | cons p rest ih =>
    cases rest with
    | nil => intro accum; rw [stamps_loop_single]; exact List.chain'_nil
    | cons q rest' =>
      intro accum
      rw [stamps_loop_cons]
      by_cases hL : hypot (q.1 - p.1) (q.2 - p.2) ≤ 1e-6
      · rw [if_pos hL]
        exact ih accum
      · rw [if_neg hL]
        have hL0 : (0 : ℝ) ≤ hypot (q.1 - p.1) (q.2 - p.2) := hypot_nonneg _ _
        have hd : (0 : ℝ) < (steps_for (hypot (q.1 - p.1) (q.2 - p.2)) : ℝ) := by
          exact_mod_cast steps_for_pos _
        refine List.Chain'.append ?_ (ih _) ?_
        · rw [segment_stamps]
          refine (List.chain'_map _).mpr (((List.chain'_range_succ _ _).mpr ?_))
          intro m _
          rw [mk_stamp_tg, mk_stamp_tg]
          apply div_le_div_nonneg_denom _ htot
          have h1 : (m : ℝ) / (steps_for (hypot (q.1 - p.1) (q.2 - p.2)) : ℝ)
              ≤ ((m : ℝ) + 1) / (steps_for (hypot (q.1 - p.1) (q.2 - p.2)) : ℝ) :=
            div_le_div_nonneg_denom (by linarith) (le_of_lt hd)
          have h2 := mul_le_mul_of_nonneg_left h1 hL0
          push_cast
          linarith
        · intro x hx y hy
          rw [segment_stamps_getLast?] at hx
          rw [Option.mem_def, Option.some_inj] at hx
          subst hx
          rw [mk_stamp_tg_last _ _ _ _ _ _ _ _ (steps_for_pos _).ne']
          exact stamps_loop_tg_lb w cs ce htot _ _ y (List.mem_of_mem_head? hy)

theorem stamps_loop_head_tg (w : ℕ) (cs ce : ℤ × ℤ × ℤ) (total : ℝ) :
    ∀ (points : List Point) (accum : ℝ) (st : Stamp),
      (stamps_loop w cs ce total points accum).head? = some st →
        st.tg = accum / total := by
  intro points
  induction points with
  | nil =>
    intro accum st h
    rw [stamps_loop_nil] at h
    exact absurd h (by simp)
  | cons p rest ih =>
    cases rest with
    | nil =>
      intro accum st h
      rw [stamps_loop_single] at h
      exact absurd h (by simp)
    | cons q rest' =>
      intro accum st h
      rw [stamps_loop_cons] at h
      by_cases hL : hypot (q.1 - p.1) (q.2 - p.2) ≤ 1e-6
      · rw [if_pos hL] at h
        exact ih accum st h
      · rw [if_neg hL] at h
        rw [List.head?_append_of_ne_nil _
          (segment_stamps_ne_nil _ _ _ _ _ _ _ _), segment_stamps_head?] at h
        rw [Option.some_inj] at h
        subst h
        exact mk_stamp_tg_zero _ _ _ _ _ _ _ _ _

theorem stamps_loop_nil_small (w : ℕ) (cs ce : ℤ × ℤ × ℤ) (total : ℝ) :
    ∀ (points : List Point) (accum : ℝ),
      stamps_loop w cs ce total points accum = [] →
      ∀ L ∈ seg_lens points, L ≤ 1e-6 := by
  intro points
  induction points with
  | nil =>
    intro accum _ L hL
    rw [seg_lens_nil] at hL
    exact absurd hL (List.not_mem_nil L)
  | cons p rest ih =>
    cases rest with
    | nil =>
      intro accum _ L hL
      rw [seg_lens_single] at hL
      exact absurd hL (List.not_mem_nil L)
    | cons q rest' =>
      intro accum h L hL
      rw [stamps_loop_cons] at h
      rw [seg_lens_cons] at hL
      by_cases hLs : hypot (q.1 - p.1) (q.2 - p.2) ≤ 1e-6
      · rw [if_pos hLs] at h
        rcases List.mem_cons.mp hL with rfl | hmem
        · exact hLs
        · exact ih accum h L hmem
      · rw [if_neg hLs] at h
        exact absurd (List.append_eq_nil.mp h).1 (segment_stamps_ne_nil _ _ _ _ _ _ _ _)

theorem stamps_loop_nil_of_small (w : ℕ) (cs ce : ℤ × ℤ × ℤ) (total : ℝ) :
    ∀ (points : List Point) (accum : ℝ),
      (∀ L ∈ seg_lens points, L ≤ 1e-6) →
      stamps_loop w cs ce total points accum = [] := by
  intro points
  induction points with
  | nil => intro accum _; exact stamps_loop_nil _ _ _ _ _
  | cons p rest ih =>
    cases rest with
    | nil => intro accum _; exact stamps_loop_single _ _ _ _ _ _
    | cons q rest' =>
      intro accum h
      rw [stamps_loop_cons]
      have hL : hypot (q.1 - p.1) (q.2 - p.2) ≤ 1e-6 := by
        apply h
        rw [seg_lens_cons]
        exact List.mem_cons_self _ _
      rw [if_pos hL]
      apply ih
      intro L hmem
      apply h
      rw [seg_lens_cons]
      exact List.mem_cons_of_mem _ hmem

theorem stamps_loop_getLast_tg (w : ℕ) (cs ce : ℤ × ℤ × ℤ) {total : ℝ}
    (htot : 0 < total) :
    ∀ (points : List Point) (accum : ℝ),
      (∀ L ∈ seg_lens points, L ≤ 1e-6 → L = 0) →
      accum + (seg_lens points).sum = total →
      ∀ st, (stamps_loop w cs ce total points accum).getLast? = some st →
        st.tg = 1 := by
  intro points
  induction points with
  | nil =>
    intro accum _ _ st h
    rw [stamps_loop_nil] at h
    exact absurd h (by simp)
  | cons p rest ih =>
    cases rest with
    | nil =>
      intro accum _ _ st h
      rw [stamps_loop_single] at h
      exact absurd h (by simp)
    | cons q rest' =>
      intro accum hzero hsum st h
      rw [stamps_loop_cons] at h
      rw [seg_lens_cons] at hzero hsum
      by_cases hL : hypot (q.1 - p.1) (q.2 - p.2) ≤ 1e-6
      · rw [if_pos hL] at h
        have hL0 : hypot (q.1 - p.1) (q.2 - p.2) = 0 :=
          hzero _ (List.mem_cons_self _ _) hL
        refine ih accum (fun L hm hle => hzero L (List.mem_cons_of_mem _ hm) hle)
          ?_ st h
        rw [List.sum_cons, hL0, zero_add] at hsum
        exact hsum
      · rw [if_neg hL] at h
        rw [List.sum_cons] at hsum
        cases hrec : stamps_loop w cs ce total (q :: rest')
            (accum + hypot (q.1 - p.1) (q.2 - p.2)) with
        | nil =>
          rw [hrec, List.append_nil, segment_stamps_getLast?] at h
          rw [Option.some_inj] at h
          subst h
          rw [mk_stamp_tg_last _ _ _ _ _ _ _ _ (steps_for_pos _).ne']
          have hsmall := stamps_loop_nil_small w cs ce total (q :: rest') _ hrec
          have hsum0 : (seg_lens (q :: rest')).sum = 0 :=
            List.sum_eq_zero fun M hm =>
              hzero M (List.mem_cons_of_mem _ hm) (hsmall M hm)
          rw [hsum0, add_zero] at hsum
          rw [hsum]
          exact div_self (ne_of_gt htot)
        | cons a t =>
          rw [hrec, List.getLast?_append_of_ne_nil _ (List.cons_ne_nil a t)] at h
          refine ih (accum + hypot (q.1 - p.1) (q.2 - p.2))
            (fun L hm hle => hzero L (List.mem_cons_of_mem _ hm) hle)
            (by linarith) st ?_
          rw [hrec]
          exact h

/-! ## Claim theorems -/

/-- C4: if the total path length of the polyline handed to
`draw_thick_polyline` is at most the negligible threshold 1e-6 — in
particular when all points coincide — the call is a no-op: it returns
normally and the base image is exactly unchanged (no layer is composited, so
zero pixels are drawn). -/
theorem c4_degenerate_noop (base : PImage) (points : List Point) (w : ℕ)
    (cs ce : ℤ × ℤ × ℤ) (blur : ℝ) (h : (seg_lens points).sum ≤ 1e-6) :
    draw_thick_polyline base points w cs ce blur = base := by
  unfold draw_thick_polyline
  rw [if_pos h]

/-- C4 witness: a three-point polyline whose points all coincide has total
length 0 ≤ 1e-6, and drawing it leaves the base image unchanged. -/
theorem c4_degenerate_noop_witness :
    (seg_lens [((1 : ℝ), (2 : ℝ)), ((1 : ℝ), (2 : ℝ)), ((1 : ℝ), (2 : ℝ))]).sum ≤ 1e-6
    ∧ draw_thick_polyline (PImage.new 8 8)
        [((1 : ℝ), (2 : ℝ)), ((1 : ℝ), (2 : ℝ)), ((1 : ℝ), (2 : ℝ))]
        3 (0, 0, 0) (9, 9, 9) 0 = PImage.new 8 8 := by
  have h : (seg_lens [((1 : ℝ), (2 : ℝ)), ((1 : ℝ), (2 : ℝ)), ((1 : ℝ), (2 : ℝ))]).sum
      ≤ 1e-6 := by
    rw [seg_lens_cons, seg_lens_cons, seg_lens_single]
    norm_num [hypot, Real.sqrt_zero]
  exact ⟨h, c4_degenerate_noop _ _ _ _ _ _ h⟩

/-- C9: a call with fewer than two points (including the empty list) returns
normally and leaves the base image exactly unchanged: no segment exists, so
the total length is 0 and the degenerate early return fires. -/
theorem c9_short_polyline_noop (base : PImage) (points : List Point) (w : ℕ)
    (cs ce : ℤ × ℤ × ℤ) (blur : ℝ) (h : points.length < 2) :
    draw_thick_polyline base points w cs ce blur = base := by
  have hsl : seg_lens points = [] := by
    cases points with
    | nil => exact seg_lens_nil
    | cons p rest =>
      cases rest with
      | nil => exact seg_lens_single p
      | cons q rest' =>
        rw [List.length_cons, List.length_cons] at h
        omega
  unfold draw_thick_polyline
  rw [hsl]
  simp only [List.sum_nil]
  rw [if_pos (by norm_num)]

/-- C9 witness: drawing a one-point polyline leaves the base image
unchanged. -/
theorem c9_short_polyline_noop_witness :
    ([((5 : ℝ), (5 : ℝ))] : List Point).length < 2
    ∧ draw_thick_polyline (PImage.new 4 4) [((5 : ℝ), (5 : ℝ))] 2 (0, 0, 0) (1, 2, 3) 1
        = PImage.new 4 4 :=
  ⟨by simp, c9_short_polyline_noop _ _ _ _ _ _ (by simp)⟩

/-- C5: the stamps drawn by `draw_thick_polyline` decompose per segment:
a segment of length `L > 1e-6` receives `max 8 (int (L / 2)) + 1` stamps —
at least 8, growing with `L` — and a segment with `L ≤ 1e-6` receives none. -/
theorem c5_stamp_counts (points : List Point) (w : ℕ) (cs ce : ℤ × ℤ × ℤ) (L : ℝ) :
    (stamps points w cs ce).length = ((seg_lens points).map seg_stamp_count).sum
    ∧ (1e-6 < L →
        seg_stamp_count L = max 8 (pyInt (L / 2)).toNat + 1 ∧ 8 ≤ seg_stamp_count L)
    ∧ (L ≤ 1e-6 → seg_stamp_count L = 0) := by
  refine ⟨stamps_loop_length w cs ce _ points 0, fun hL => ?_, fun hL => ?_⟩
  · rw [seg_stamp_count, if_pos hL, steps_for]
    refine ⟨rfl, ?_⟩
    have := le_max_left 8 (pyInt (L / 2)).toNat
    omega
  · rw [seg_stamp_count, if_neg (not_lt.mpr hL)]

/-- C5 witness: a single segment of length 16 yields `max 8 (int 8) + 1 = 9`
stamps (so at least 8), while a segment of length 1/2000000 ≤ 1e-6 yields
none. -/
theorem c5_stamp_counts_witness :
    (stamps [((0 : ℝ), (0 : ℝ)), ((16 : ℝ), (0 : ℝ))] 4 (0, 0, 0) (255, 255, 255)).length = 9
    ∧ seg_stamp_count (16 : ℝ) = 9
    ∧ 8 ≤ seg_stamp_count (16 : ℝ)
    ∧ seg_stamp_count ((1 / 2000000 : ℝ)) = 0 := by
  obtain ⟨hlen, himp, -⟩ :=
    c5_stamp_counts [((0 : ℝ), (0 : ℝ)), ((16 : ℝ), (0 : ℝ))] 4 (0, 0, 0) (255, 255, 255) 16
  obtain ⟨hcount, hge⟩ := himp (by norm_num)
  obtain ⟨-, -, hsmall⟩ :=
    c5_stamp_counts [((0 : ℝ), (0 : ℝ)), ((16 : ℝ), (0 : ℝ))] 4 (0, 0, 0) (255, 255, 255)
      (1 / 2000000)
  have hc : seg_stamp_count (16 : ℝ) = 9 := by
    rw [hcount, show (16 : ℝ) / 2 = ((8 : ℤ) : ℝ) by norm_num, pyInt_intCast]
    rfl
  have hsl : seg_lens [((0 : ℝ), (0 : ℝ)), ((16 : ℝ), (0 : ℝ))] = [16] := by
    rw [seg_lens_cons, seg_lens_single]
    norm_num
    exact hypot_x_zero (by norm_num)
  refine ⟨?_, hc, hge, hsmall (by norm_num)⟩
  rw [hlen, hsl, List.map_cons, List.map_nil, List.sum_cons, List.sum_nil, hc]
  rfl

/-- C6: for every canvas size, `make_icon` composites its layers in the fixed
order shadow, then the two ribbon strokes, then highlight: the shadow layer's
alpha is scaled by 0.20 before merging, the highlight layer is drawn at
`max 1 (int (stroke * 0.45))` — at least 1 pixel — with its alpha scaled by
0.18 before merging, and the only operation applied after the final
composite is the unsharp-mask pass. -/
theorem c6_layer_order (size : ℕ) :
    make_icon size =
      PImage.unsharp
        (PImage.composite
          (draw_thick_polyline
            (draw_thick_polyline
              (PImage.composite (PImage.new size size)
                (PImage.putalphaScaled (shadow_base size) 0.20))
              (left_pts size) (stroke size) (0, 210, 255) (150, 70, 255) 0)
            (right_pts size) (stroke size) (80, 255, 210) (255, 40, 200) 0)
          (PImage.putalphaScaled (highlight_base size) 0.18))
        2 150 3
    ∧ highlight_width size = max 1 (pyInt ((stroke size : ℝ) * 0.45)).toNat
    ∧ 1 ≤ highlight_width size
    ∧ highlight_base size =
        draw_thick_polyline
          (draw_thick_polyline (PImage.new size size)
            (left_pts size) (highlight_width size) (255, 255, 255) (255, 255, 255) 2)
          (right_pts size) (highlight_width size) (255, 255, 255) (255, 255, 255) 2
    ∧ shadow_base size =
        draw_thick_polyline
          (draw_thick_polyline (PImage.new size size)
            (shadow_shift size (left_pts size)) (stroke size) (0, 0, 0) (0, 0, 0) 8)
          (shadow_shift size (right_pts size)) (stroke size) (0, 0, 0) (0, 0, 0) 8 :=
  ⟨rfl, rfl, le_max_left 1 _, rfl, rfl⟩

/-- C7: for every canvas size, the geometry of `make_icon` is exactly two
5-point polylines, each point obtained from the hard-coded normalized
coordinates through `P(nx, ny) = (pad + nx * (size - 2 * pad), pad + ny *
(size - 2 * pad))` with `pad = int(size * 0.12)`; `Ppt` is a pure function
of `size` alone. -/
theorem c7_geometry (size : ℕ) :
    (left_pts size).length = 5 ∧ (right_pts size).length = 5
    ∧ left_pts size = [Ppt size (0.10, 0.15), Ppt size (0.28, 0.80),
        Ppt size (0.48, 0.45), Ppt size (0.62, 0.80), Ppt size (0.82, 0.15)]
    ∧ right_pts size = [Ppt size (0.18, 0.15), Ppt size (0.36, 0.78),
        Ppt size (0.50, 0.52), Ppt size (0.68, 0.78), Ppt size (0.90, 0.15)]
    ∧ (∀ n : ℝ × ℝ, Ppt size n
        = ((pad size : ℝ) + n.1 * ((size : ℝ) - 2 * (pad size : ℝ)),
           (pad size : ℝ) + n.2 * ((size : ℝ) - 2 * (pad size : ℝ))))
    ∧ pad size = pyInt ((size : ℝ) * 0.12) :=
  ⟨rfl, rfl, rfl, rfl, fun _ => rfl, rfl⟩

/-- C8: the pipeline is deterministic — in this embedding every stage is a
pure function of the size and the module constants, so two renders at the
same size are the same image, and `main`'s output list is a fixed value in
which the 256-pixel PNG payload and the ICO base are the very same
`make_icon 256` render. -/
theorem c8_deterministic (s : ℕ) :
    make_icon s = make_icon s
    ∧ main_outputs
        = [OutFile.png ("weftend_W_1024.png") (make_icon 1024),
           OutFile.png ("weftend_W_512.png") (make_icon 512),
           OutFile.png ("weftend_W_256.png") (make_icon 256),
           OutFile.ico ("weftend_W.ico") (make_icon 256) ico_sizes] :=
  ⟨rfl, rfl⟩

/-- C10: the shadow layer is composited with factor 0.20 and the highlight
layer with factor 0.18, and the pointwise alpha map `int(p * factor)` sends
every 8-bit value `p ≤ 255` to at most `51 = int(255 * 0.20)` for the shadow
and at most `45 = int(255 * 0.18)` for the highlight, both bounds attained
at `p = 255`. -/
theorem c10_alpha_bounds (size : ℕ) (p : ℕ) (hp : p ≤ 255) :
    shadow_layer size = PImage.putalphaScaled (shadow_base size) 0.20
    ∧ highlight_layer size = PImage.putalphaScaled (highlight_base size) 0.18
    ∧ alpha_point 0.20 p ≤ 51 ∧ alpha_point 0.18 p ≤ 45
    ∧ alpha_point 0.20 255 = 51 ∧ alpha_point 0.18 255 = 45 := by
  have hp' : (p : ℝ) ≤ 255 := by exact_mod_cast hp
  refine ⟨rfl, rfl, ?_, ?_, ?_, ?_⟩
  · rw [alpha_point, pyInt_of_nonneg (by positivity)]
    calc ⌊(p : ℝ) * 0.20⌋ ≤ ⌊(51 : ℝ)⌋ := Int.floor_le_floor (by nlinarith)
      _ = 51 := by norm_num
  · rw [alpha_point, pyInt_of_nonneg (by positivity)]
    calc ⌊(p : ℝ) * 0.18⌋ ≤ ⌊(45.9 : ℝ)⌋ := Int.floor_le_floor (by nlinarith)
      _ = 45 := by
        rw [Int.floor_eq_iff]
        norm_num
  · rw [alpha_point, show ((255 : ℕ) : ℝ) * 0.20 = 51 by norm_num,
      pyInt_of_nonneg (by norm_num)]
    norm_num
  · rw [alpha_point, show ((255 : ℕ) : ℝ) * 0.18 = 45.9 by norm_num,
      pyInt_of_nonneg (by norm_num), Int.floor_eq_iff]
    norm_num

/-- C10 witness: at size 256 and alpha value 200 the scaled shadow and
highlight alphas respect the bounds 51 and 45. -/
theorem c10_alpha_bounds_witness :
    (200 : ℕ) ≤ 255
    ∧ (shadow_layer 256 = PImage.putalphaScaled (shadow_base 256) 0.20
      ∧ highlight_layer 256 = PImage.putalphaScaled (highlight_base 256) 0.18
      ∧ alpha_point 0.20 200 ≤ 51 ∧ alpha_point 0.18 200 ≤ 45
      ∧ alpha_point 0.20 255 = 51 ∧ alpha_point 0.18 255 = 45) :=
  ⟨by norm_num, c10_alpha_bounds 256 200 (by norm_num)⟩

/-- C1 counterexample: `main` writes exactly 4 files — the three
size-suffixed PNGs and the ICO container — not 5: no canonical
`weftend_W.png` appears among its outputs. -/
theorem c1_files_counterexample :
    main_outputs.map OutFile.path
      = ["weftend_W_1024.png", "weftend_W_512.png", "weftend_W_256.png", "weftend_W.ico"]
    ∧ (main_outputs.map OutFile.path).length ≠ 5
    ∧ ("weftend_W.png") ∉ main_outputs.map OutFile.path := by
  have h : main_outputs.map OutFile.path
      = ["weftend_W_1024.png", "weftend_W_512.png", "weftend_W_256.png", "weftend_W.ico"] :=
    rfl
  refine ⟨h, ?_, ?_⟩
  · rw [h]
    decide
  · rw [h]
    decide

/-- C1 (amended): running the export driver with sizes [1024, 512, 256] into
a fresh directory produces exactly 4 distinct files: the three size-suffixed
PNGs, each rendered at its size, and the multi-resolution ICO container
built from a fresh 256-pixel render; no separate canonical `weftend_W.png`
copy is written. -/
theorem c1_files_amended :
    main_outputs.map OutFile.path
      = ["weftend_W_1024.png", "weftend_W_512.png", "weftend_W_256.png", "weftend_W.ico"]
    ∧ (main_outputs.map OutFile.path).Nodup
    ∧ main_outputs
      = [OutFile.png ("weftend_W_1024.png") (make_icon 1024),
         OutFile.png ("weftend_W_512.png") (make_icon 512),
         OutFile.png ("weftend_W_256.png") (make_icon 256),
         OutFile.ico ("weftend_W.ico") (make_icon 256) ico_sizes] := by
  refine ⟨rfl, ?_, rfl⟩
  have h : main_outputs.map OutFile.path
      = ["weftend_W_1024.png", "weftend_W_512.png", "weftend_W_256.png", "weftend_W.ico"] :=
    rfl
  rw [h]
  decide

theorem stamps_def (points : List Point) (w : ℕ) (cs ce : ℤ × ℤ × ℤ) :
    stamps points w cs ce = stamps_loop w cs ce (seg_lens points).sum points 0 := rfl

theorem rgb_lerp_r (c1 c2 : ℤ × ℤ × ℤ) (t : ℝ) :
    (rgb_lerp c1 c2 t).r = pyInt (lerp (c1.1 : ℝ) (c2.1 : ℝ) t) := rfl

theorem rgb_lerp_g (c1 c2 : ℤ × ℤ × ℤ) (t : ℝ) :
    (rgb_lerp c1 c2 t).g = pyInt (lerp (c1.2.1 : ℝ) (c2.2.1 : ℝ) t) := rfl

theorem rgb_lerp_b (c1 c2 : ℤ × ℤ × ℤ) (t : ℝ) :
    (rgb_lerp c1 c2 t).b = pyInt (lerp (c1.2.2 : ℝ) (c2.2.2 : ℝ) t) := rfl

/-- C2 (amended): every stamp drawn by `draw_thick_polyline` has color
`rgb_lerp c_start c_end t` at its global parameter `t` with alpha 255, and
`t` is 0 at the first stamp; `t` is 1 at the last stamp provided every
segment length at or below the 1e-6 threshold is exactly zero.  (As stated
the claim fails: a segment of positive length ≤ 1e-6 is skipped without
being counted into the traveled arc length, so the final `t` falls short
of 1.) -/
theorem c2_gradient_amended (points : List Point) (w : ℕ) (cs ce : ℤ × ℤ × ℤ)
    (hseg : ∀ L ∈ seg_lens points, L ≤ 1e-6 → L = 0) :
    (∀ st ∈ stamps points w cs ce, st.col = rgb_lerp cs ce st.tg ∧ st.col.a = 255)
    ∧ ((stamps points w cs ce).head?.map Stamp.tg = some 0
        ∨ stamps points w cs ce = [])
    ∧ ((stamps points w cs ce).getLast?.map Stamp.tg = some 1
        ∨ stamps points w cs ce = []) := by
  refine ⟨fun st hst => stamps_loop_col w cs ce _ points 0 st hst, ?_, ?_⟩
  · cases hh : (stamps points w cs ce).head? with
    | none => exact Or.inr (List.head?_eq_none_iff.mp hh)
    | some st =>
      left
      rw [Option.map_some']
      rw [stamps_loop_head_tg w cs ce _ points 0 st hh, zero_div]
  · cases hl : (stamps points w cs ce).getLast? with
    | none => exact Or.inr (List.getLast?_eq_none_iff.mp hl)
    | some st =>
      left
      have hne : stamps points w cs ce ≠ [] := by
        intro h0
        rw [h0] at hl
        simp at hl
      have hex : ∃ L ∈ seg_lens points, 1e-6 < L := by
        by_contra hno
        push_neg at hno
        exact hne (stamps_loop_nil_of_small w cs ce _ points 0 hno)
      obtain ⟨L, hmem, hLgt⟩ := hex
      have htot : 0 < (seg_lens points).sum :=
        lt_of_lt_of_le (lt_trans (by norm_num) hLgt)
          (List.single_le_sum seg_lens_nonneg L hmem)
      rw [Option.map_some']
      rw [stamps_loop_getLast_tg w cs ce htot points 0 hseg (zero_add _) st hl]

/-- C2 witness: on the single-segment polyline from (0,0) to (16,0), with
gradient black to white, the amended statement holds: the hypothesis is
satisfied since the only segment has length 16 > 1e-6. -/
theorem c2_gradient_witness :
    (∀ L ∈ seg_lens [((0 : ℝ), (0 : ℝ)), ((16 : ℝ), (0 : ℝ))], L ≤ 1e-6 → L = 0)
    ∧ ((∀ st ∈ stamps [((0 : ℝ), (0 : ℝ)), ((16 : ℝ), (0 : ℝ))] 4 (0, 0, 0) (255, 255, 255),
          st.col = rgb_lerp (0, 0, 0) (255, 255, 255) st.tg ∧ st.col.a = 255)
      ∧ ((stamps [((0 : ℝ), (0 : ℝ)), ((16 : ℝ), (0 : ℝ))] 4
            (0, 0, 0) (255, 255, 255)).head?.map Stamp.tg = some 0
          ∨ stamps [((0 : ℝ), (0 : ℝ)), ((16 : ℝ), (0 : ℝ))] 4 (0, 0, 0) (255, 255, 255) = [])
      ∧ ((stamps [((0 : ℝ), (0 : ℝ)), ((16 : ℝ), (0 : ℝ))] 4
            (0, 0, 0) (255, 255, 255)).getLast?.map Stamp.tg = some 1
          ∨ stamps [((0 : ℝ), (0 : ℝ)), ((16 : ℝ), (0 : ℝ))] 4 (0, 0, 0) (255, 255, 255) = [])) := by
  have hsl : seg_lens [((0 : ℝ), (0 : ℝ)), ((16 : ℝ), (0 : ℝ))] = [16] := by
    rw [seg_lens_cons, seg_lens_single]
    norm_num
    exact hypot_x_zero (by norm_num)
  have hseg : ∀ L ∈ seg_lens [((0 : ℝ), (0 : ℝ)), ((16 : ℝ), (0 : ℝ))], L ≤ 1e-6 → L = 0 := by
    rw [hsl]
    intro L hL hle
    rw [List.mem_singleton] at hL
    subst hL
    norm_num at hle
  exact ⟨hseg, c2_gradient_amended _ 4 (0, 0, 0) (255, 255, 255) hseg⟩

/-- C2 counterexample: on the polyline (0,0) → (1/2000000, 0) → (1,0) the
first segment has positive length 1/2000000 ≤ 1e-6 and is skipped without
being counted into the traveled arc length, so the last stamp — issued at
the last point of the polyline, where the traveled arc length equals the
total — has global parameter 1 - 1/2000000 ≠ 1 and red channel
`int(255 * (1 - 1/2000000)) = 254`, not the 255 the claim's `t = 1`
prescribes. -/
theorem c2_gradient_counterexample :
    ((stamps [((0 : ℝ), (0 : ℝ)), ((1 / 2000000 : ℝ), (0 : ℝ)), ((1 : ℝ), (0 : ℝ))] 2
        (0, 0, 0) (255, 255, 255)).getLast?.map Stamp.tg) = some (1 - 1 / 2000000)
    ∧ (1 - 1 / 2000000 : ℝ) ≠ 1
    ∧ ((stamps [((0 : ℝ), (0 : ℝ)), ((1 / 2000000 : ℝ), (0 : ℝ)), ((1 : ℝ), (0 : ℝ))] 2
        (0, 0, 0) (255, 255, 255)).getLast?.map (fun st => st.col.r)) = some 254
    ∧ (rgb_lerp (0, 0, 0) (255, 255, 255) 1).r = 255 := by
  have hqA : hypot (((1 / 2000000 : ℝ), (0 : ℝ)).1 - ((0 : ℝ), (0 : ℝ)).1)
      (((1 / 2000000 : ℝ), (0 : ℝ)).2 - ((0 : ℝ), (0 : ℝ)).2) = 1 / 2000000 := by
    norm_num
    exact hypot_x_zero (by norm_num)
  have hrA : hypot (((1 : ℝ), (0 : ℝ)).1 - ((1 / 2000000 : ℝ), (0 : ℝ)).1)
      (((1 : ℝ), (0 : ℝ)).2 - ((1 / 2000000 : ℝ), (0 : ℝ)).2) = 1 - 1 / 2000000 := by
    norm_num
    exact hypot_x_zero (by norm_num)
  have htot : (seg_lens [((0 : ℝ), (0 : ℝ)), ((1 / 2000000 : ℝ), (0 : ℝ)),
      ((1 : ℝ), (0 : ℝ))]).sum = 1 := by
    rw [seg_lens_cons, seg_lens_cons, seg_lens_single, List.sum_cons, List.sum_cons,
      List.sum_nil, hqA, hrA]
    norm_num
  have hstamps : stamps [((0 : ℝ), (0 : ℝ)), ((1 / 2000000 : ℝ), (0 : ℝ)), ((1 : ℝ), (0 : ℝ))] 2
      (0, 0, 0) (255, 255, 255)
      = segment_stamps ((1 / 2000000 : ℝ), (0 : ℝ)) ((1 : ℝ), (0 : ℝ))
          (1 - 1 / 2000000) 0 1 2 (0, 0, 0) (255, 255, 255) := by
    rw [stamps_def, htot, stamps_loop_cons, hqA,
      if_pos (by norm_num : (1 / 2000000 : ℝ) ≤ 1e-6),
      stamps_loop_cons, hrA,
      if_neg (by norm_num : ¬((1 - 1 / 2000000 : ℝ) ≤ 1e-6)),
      stamps_loop_single, List.append_nil]
  have hsteps : steps_for (1 - 1 / 2000000 : ℝ) = 8 := by
    rw [steps_for]
    have h0 : pyInt ((1 - 1 / 2000000 : ℝ) / 2) = 0 := by
      rw [pyInt_of_nonneg (by norm_num), Int.floor_eq_zero_iff]
      rw [Set.mem_Ico]
      norm_num
    rw [h0]
    rfl
  have hlast : (segment_stamps ((1 / 2000000 : ℝ), (0 : ℝ)) ((1 : ℝ), (0 : ℝ))
      (1 - 1 / 2000000) 0 1 2 (0, 0, 0) (255, 255, 255)).getLast?
      = some (mk_stamp ((1 / 2000000 : ℝ), (0 : ℝ)) ((1 : ℝ), (0 : ℝ))
          (1 - 1 / 2000000) 0 1 2 (0, 0, 0) (255, 255, 255) 8 8) := by
    rw [segment_stamps_getLast?, hsteps]
  have htg : (mk_stamp ((1 / 2000000 : ℝ), (0 : ℝ)) ((1 : ℝ), (0 : ℝ))
      (1 - 1 / 2000000) 0 1 2 (0, 0, 0) (255, 255, 255) 8 8).tg = 1 - 1 / 2000000 := by
    rw [mk_stamp_tg_last _ _ _ _ _ _ _ _ (by norm_num : (8 : ℕ) ≠ 0)]
    norm_num
  have hcol : (mk_stamp ((1 / 2000000 : ℝ), (0 : ℝ)) ((1 : ℝ), (0 : ℝ))
      (1 - 1 / 2000000) 0 1 2 (0, 0, 0) (255, 255, 255) 8 8).col.r = 254 := by
    rw [mk_stamp_col, htg, rgb_lerp_r]
    have harg : lerp ((((0, 0, 0) : ℤ × ℤ × ℤ).1 : ℤ) : ℝ)
        ((((255, 255, 255) : ℤ × ℤ × ℤ).1 : ℤ) : ℝ) (1 - 1 / 2000000)
        = 255 * (1 - 1 / 2000000) := by
      rw [lerp]
      norm_num
    rw [harg, pyInt_of_nonneg (by norm_num), Int.floor_eq_iff]
    norm_num
  refine ⟨?_, by norm_num, ?_, ?_⟩
  · rw [hstamps, hlast, Option.map_some', htg]
  · rw [hstamps, hlast]
    simp only [Option.map_some']
    rw [hcol]
  · rw [rgb_lerp_r]
    have harg : lerp ((((0, 0, 0) : ℤ × ℤ × ℤ).1 : ℤ) : ℝ)
        ((((255, 255, 255) : ℤ × ℤ × ℤ).1 : ℤ) : ℝ) (1 : ℝ) = 255 := by
      rw [lerp]
      norm_num
    rw [harg, show (255 : ℝ) = ((255 : ℤ) : ℝ) by norm_num, pyInt_intCast]

/-- Direction-aware monotonicity of a list of channel values: consecutive
entries are non-decreasing when the end channel `b` is at least the start
channel `a`, non-increasing otherwise. -/
def chanDir (a b : ℤ) (l : List ℤ) : Prop :=
  if a ≤ b then List.Chain' (fun x y : ℤ => x ≤ y) l
  else List.Chain' (fun x y : ℤ => y ≤ x) l

theorem chain_map_of_tg {l : List Stamp} {sel : Stamp → ℤ} {f : ℝ → ℤ}
    {R : ℤ → ℤ → Prop}
    (hchain : List.Chain' (fun a b : Stamp => a.tg ≤ b.tg) l)
    (hsel : ∀ st ∈ l, sel st = f st.tg)
    (hf : ∀ u v : ℝ, u ≤ v → R (f u) (f v)) :
    List.Chain' R (l.map sel) := by
  rw [List.chain'_map]
  rw [List.chain'_iff_get] at hchain ⊢
  intro i h
  rw [hsel _ (List.get_mem l _ _), hsel _ (List.get_mem l _ _)]
  exact hf _ _ (hchain i h)

theorem pyInt_lerp_mono {a b : ℤ} (hab : a ≤ b) {u v : ℝ} (huv : u ≤ v) :
    pyInt (lerp (a : ℝ) (b : ℝ) u) ≤ pyInt (lerp (a : ℝ) (b : ℝ) v) := by
  apply pyInt_mono
  rw [lerp, lerp]
  have hba : (0 : ℝ) ≤ (b : ℝ) - (a : ℝ) := by
    rw [sub_nonneg]
    exact_mod_cast hab
  have := mul_le_mul_of_nonneg_left huv hba
  linarith

theorem pyInt_lerp_anti {a b : ℤ} (hba : b ≤ a) {u v : ℝ} (huv : u ≤ v) :
    pyInt (lerp (a : ℝ) (b : ℝ) v) ≤ pyInt (lerp (a : ℝ) (b : ℝ) u) := by
  apply pyInt_mono
  rw [lerp, lerp]
  have hab : (b : ℝ) - (a : ℝ) ≤ 0 := by
    rw [sub_nonpos]
    exact_mod_cast hba
  have := mul_le_mul_of_nonpos_left huv hab
  linarith

/-- C3: along any single stroke, the stamp colors in stamping order are
monotone in each channel — non-decreasing in a channel when the end color's
channel is at least the start color's, non-increasing otherwise — because
the global parameter is non-decreasing along the stamp sequence and `int`
truncation preserves monotonicity. -/
theorem c3_gradient_monotone (points : List Point) (w : ℕ) (cs ce : ℤ × ℤ × ℤ) :
    chanDir cs.1 ce.1 ((stamps points w cs ce).map (fun st => st.col.r))
    ∧ chanDir cs.2.1 ce.2.1 ((stamps points w cs ce).map (fun st => st.col.g))
    ∧ chanDir cs.2.2 ce.2.2 ((stamps points w cs ce).map (fun st => st.col.b)) := by
  have htot : (0 : ℝ) ≤ (seg_lens points).sum := total_nonneg points
  have hchain := stamps_loop_chain w cs ce htot points 0
  have hcol := stamps_loop_col w cs ce ((seg_lens points).sum) points 0
  simp only [stamps_def]
  refine ⟨?_, ?_, ?_⟩
  · rw [chanDir]
    split
    · rename_i hab
      refine chain_map_of_tg hchain (fun st hst => ?_)
        (fun u v huv => pyInt_lerp_mono hab huv)
      rw [(hcol st hst).1, rgb_lerp_r]
    · rename_i hab
      push_neg at hab
      refine chain_map_of_tg hchain (fun st hst => ?_)
        (fun u v huv => pyInt_lerp_anti (le_of_lt hab) huv)
      rw [(hcol st hst).1, rgb_lerp_r]
  · rw [chanDir]
    split
    · rename_i hab
      refine chain_map_of_tg hchain (fun st hst => ?_)
        (fun u v huv => pyInt_lerp_mono hab huv)
      rw [(hcol st hst).1, rgb_lerp_g]
    · rename_i hab
      push_neg at hab
      refine chain_map_of_tg hchain (fun st hst => ?_)
        (fun u v huv => pyInt_lerp_anti (le_of_lt hab) huv)
      rw [(hcol st hst).1, rgb_lerp_g]
  · rw [chanDir]
    split
    · rename_i hab
      refine chain_map_of_tg hchain (fun st hst => ?_)
        (fun u v huv => pyInt_lerp_mono hab huv)
      rw [(hcol st hst).1, rgb_lerp_b]
    · rename_i hab
      push_neg at hab
      refine chain_map_of_tg hchain (fun st hst => ?_)
        (fun u v huv => pyInt_lerp_anti (le_of_lt hab) huv)
      rw [(hcol st hst).1, rgb_lerp_b]
